import Mathlib

/-
  Verification development for the NaNoGenMo yearly-bootstrap tool
  (`nanogenmogen.py`).  The pure computational content of the script is
  embedded here over `List Char` / `String`:

  * `pyReplace`        — Python `str.replace` (non-empty pattern),
  * `splitFuel`/`splitOnSub` — the greedy occurrence decomposition it induces,
  * `readmeReplacements` / `updateReadmeData` — the five README substitutions,
  * `issue1Text` / `issue2Text` — the two generated issue bodies,
  * `dedent` / `pySplitlines` / `runLines` — the command runner,
  * `yearStep` / `runYearCalls` — the memoized year resolver.
-/

set_option maxRecDepth 8000

namespace NaNoGenMoGen

/-- Does `pat` occur as a contiguous substring of `s`?  Mirrors Python's
substring test and the occurrence scan of `str.replace`. -/
def containsSub (pat : List Char) : List Char → Bool
  | [] => pat.isEmpty
  | c :: cs => pat.isPrefixOf (c :: cs) || containsSub pat cs

/-- Interleave the fixed list `x` between consecutive pieces. -/
def joinWith (x : List Char) : List (List Char) → List Char
  | [] => []
  | [s] => s
  | s :: rest => s ++ x ++ joinWith x rest

/-- Fuel-indexed left-to-right scan-and-replace on character lists.  With
`fuel ≥ s.length` this computes Python's `s.replace(old, new)` for a
non-empty `old`: at each position the scanner either replaces a match of
`old` (continuing after the match, so replaced matches never overlap) or
keeps one character.  Each step consumes at least one character of `s`,
so `s.length` fuel is always enough. -/
def replaceFuel (old new : List Char) : Nat → List Char → List Char
  | 0, s => s
  | _ + 1, [] => []
  | fuel + 1, c :: cs =>
    if old ≠ [] ∧ old.isPrefixOf (c :: cs) then
      new ++ replaceFuel old new fuel ((c :: cs).drop old.length)
    else
      c :: replaceFuel old new fuel cs

/-- Python's `s.replace(old, new)` for a non-empty pattern `old`. -/
def pyReplace (s old new : List Char) : List Char :=
  replaceFuel old new s.length s

/-- Fuel-indexed greedy split of `s` at the matches of `old`: the pieces
are the maximal stretches of `s` that the scan of `replaceFuel` leaves
untouched, in order. -/
def splitFuel (old : List Char) : Nat → List Char → List (List Char)
  | 0, s => [s]
  | _ + 1, [] => [[]]
  | fuel + 1, c :: cs =>
    if old ≠ [] ∧ old.isPrefixOf (c :: cs) then
      [] :: splitFuel old fuel ((c :: cs).drop old.length)
    else
      match splitFuel old fuel cs with
      | [] => [[c]]
      | p :: ps => (c :: p) :: ps

/-- The greedy decomposition of `s` at the occurrences of `old`. -/
def splitOnSub (old s : List Char) : List (List Char) :=
  splitFuel old s.length s

/-- Overlap-freeness of a pattern `pat` against a block `x`: `pat` does
not occur inside `x`, `x` does not occur inside `pat`, no nonempty proper
suffix of `pat` is a prefix of `x`, and no nonempty proper suffix of `x`
is a prefix of `pat`.  When this holds, an occurrence of `pat` in a text
can never intersect an inserted or matched copy of `x`. -/
def noOverlap (pat x : List Char) : Bool :=
  !containsSub pat x && !containsSub x pat &&
    pat.tails.all (fun v => v.isEmpty || v == pat || !v.isPrefixOf x) &&
    x.tails.all (fun t => t.isEmpty || t == x || !t.isPrefixOf pat)

/-- Bridge between the executable prefix test and the `<+:` relation. -/
theorem isPrefixOf_iff {a b : List Char} : a.isPrefixOf b = true ↔ a <+: b := by
  simp

/-- The executable substring test agrees with the infix relation. -/
theorem containsSub_iff {pat s : List Char} : containsSub pat s = true ↔ pat <:+: s := by
  induction s with
  | nil => simp [containsSub]
  | cons c cs ih => simp [containsSub, ih, List.infix_cons_iff]

theorem containsSub_eq_false {pat s : List Char} :
    containsSub pat s = false ↔ ¬ pat <:+: s := by
  rw [← containsSub_iff]
  simp

/-- A prefix of an append either stops inside the left part or covers it. -/
theorem prefix_split {p t y : List Char} (h : p <+: t ++ y) :
    p <+: t ∨ ∃ r, p = t ++ r ∧ r <+: y := by
  induction t generalizing p with
  | nil => exact Or.inr ⟨p, rfl, by simpa using h⟩
  | cons a t ih =>
    cases p with
    | nil => exact Or.inl (List.nil_prefix)
    | cons b p' =>
      rw [List.cons_append, List.cons_prefix_cons] at h
      obtain ⟨hb, hp⟩ := h
      rcases ih hp with h' | ⟨r, hr1, hr2⟩
      · exact Or.inl (by rw [List.cons_prefix_cons]; exact ⟨hb, h'⟩)
      · exact Or.inr ⟨r, by rw [List.cons_append, hb, hr1], hr2⟩

/-- An occurrence of `pat` in `x ++ y` either starts inside `x` (at some
nonempty suffix `t` of `x`) or lies entirely inside `y`. -/
theorem containsSub_append {pat x y : List Char} (h : containsSub pat (x ++ y) = true) :
    (∃ t, t <:+ x ∧ t ≠ [] ∧ pat <+: t ++ y) ∨ containsSub pat y = true := by
  induction x with
  | nil => exact Or.inr (by simpa using h)
  | cons c cs ih =>
    rw [List.cons_append] at h
    rw [containsSub, Bool.or_eq_true] at h
    rcases h with h | h
    · exact Or.inl ⟨c :: cs, List.suffix_rfl, List.cons_ne_nil _ _,
        by simpa [List.cons_append] using isPrefixOf_iff.mp h⟩
    · rcases ih h with ⟨t, ht, htne, hp⟩ | h'
      · exact Or.inl ⟨t, ht.trans (List.suffix_cons c cs), htne, hp⟩
      · exact Or.inr h'

theorem joinWith_cons_cons {x s t : List Char} {r : List (List Char)} :
    joinWith x (s :: t :: r) = s ++ x ++ joinWith x (t :: r) := rfl

theorem splitFuel_ne_nil {old : List Char} : ∀ (f : Nat) (s : List Char),
    splitFuel old f s ≠ [] := by
  intro f s
  match f, s with
  | 0, s => simp [splitFuel]
  | f + 1, [] => simp [splitFuel]
  | f + 1, c :: cs =>
    rw [splitFuel]
    split
    · simp
    · cases hsp : splitFuel old f cs <;> simp

/-- The first piece of the greedy split is a prefix of the input. -/
theorem firstPiece_isPre {old : List Char} : ∀ {f : Nat} {s p : List Char}
    {ps : List (List Char)}, splitFuel old f s = p :: ps → p <+: s := by
  intro f
  induction f with
  | zero =>
    intro s p ps h
    rw [splitFuel] at h
    cases h
    exact List.prefix_rfl
  | succ f ih =>
    intro s p ps h
    cases s with
    | nil =>
      rw [splitFuel] at h
      cases h
      exact List.prefix_rfl
    | cons c cs =>
      rw [splitFuel] at h
      split at h
      · cases h
        exact List.nil_prefix
      · rename_i hneg
        cases hsp : splitFuel old f cs with
        | nil => exact absurd hsp (splitFuel_ne_nil f cs)
        | cons q qs =>
          rw [hsp] at h
          cases h
          rw [List.cons_prefix_cons]
          exact ⟨rfl, ih hsp⟩

/-- Every piece of the greedy split is an infix of the input. -/
theorem piece_isInf {old : List Char} : ∀ {f : Nat} {s p : List Char},
    p ∈ splitFuel old f s → p <:+: s := by
  intro f
  induction f with
  | zero =>
    intro s p h
    rw [splitFuel, List.mem_singleton] at h
    exact h ▸ List.infix_rfl
  | succ f ih =>
    intro s p h
    cases s with
    | nil =>
      rw [splitFuel, List.mem_singleton] at h
      exact h ▸ List.infix_rfl
    | cons c cs =>
      rw [splitFuel] at h
      split at h
      · rcases List.mem_cons.mp h with h | h
        · exact h ▸ List.nil_infix
        · exact (ih h).trans (List.drop_suffix _ _).isInfix
      · cases hsp : splitFuel old f cs with
        | nil => exact absurd hsp (splitFuel_ne_nil f cs)
        | cons q qs =>
          rw [hsp] at h
          rcases List.mem_cons.mp h with h | h
          · subst h
            exact (List.cons_prefix_cons.mpr ⟨rfl, firstPiece_isPre hsp⟩).isInfix
          · exact List.infix_cons (ih (hsp ▸ List.mem_cons_of_mem q h))

/-- The scan-and-replace result is the greedy pieces joined with `new`. -/
theorem replaceFuel_eq_joinWith {old new : List Char} : ∀ (f : Nat) (s : List Char),
    replaceFuel old new f s = joinWith new (splitFuel old f s) := by
  intro f
  induction f with
  | zero => intro s; rfl
  | succ f ih =>
    intro s
    cases s with
    | nil => rfl
    | cons c cs =>
      rw [replaceFuel, splitFuel]
      split
      · cases hsp : splitFuel old f ((c :: cs).drop old.length) with
        | nil => exact absurd hsp (splitFuel_ne_nil f _)
        | cons q qs =>
          rw [ih, hsp, joinWith_cons_cons]
          simp
      · cases hsp : splitFuel old f cs with
        | nil => exact absurd hsp (splitFuel_ne_nil f cs)
        | cons q qs =>
          cases qs with
          | nil => rw [ih, hsp]; rfl
          | cons q2 qs2 =>
            rw [ih, hsp, joinWith_cons_cons, joinWith_cons_cons]
            simp

/-- Joining the greedy pieces with the pattern itself recovers the input. -/
theorem joinWith_splitFuel {old : List Char} : ∀ (f : Nat) (s : List Char),
    joinWith old (splitFuel old f s) = s := by
  intro f
  induction f with
  | zero => intro s; rfl
  | succ f ih =>
    intro s
    cases s with
    | nil => rfl
    | cons c cs =>
      rw [splitFuel]
      split
      · rename_i hpos
        cases hsp : splitFuel old f ((c :: cs).drop old.length) with
        | nil => exact absurd hsp (splitFuel_ne_nil f _)
        | cons q qs =>
          rw [joinWith_cons_cons]
          have hrec := ih ((c :: cs).drop old.length)
          rw [hsp] at hrec
          rw [hrec]
          have := List.prefix_iff_eq_append.mp (isPrefixOf_iff.mp hpos.2)
          simpa using this
      · cases hsp : splitFuel old f cs with
        | nil => exact absurd hsp (splitFuel_ne_nil f cs)
        | cons q qs =>
          have hrec := ih cs
          rw [hsp] at hrec
          cases qs with
          | nil => rw [show joinWith old [c :: q] = c :: q from rfl]; rw [← hrec]; rfl
          | cons q2 qs2 =>
            rw [joinWith_cons_cons]
            rw [joinWith_cons_cons] at hrec
            rw [← hrec]
            simp

theorem pyReplace_eq_joinWith {s old new : List Char} :
    pyReplace s old new = joinWith new (splitOnSub old s) :=
  replaceFuel_eq_joinWith s.length s

theorem joinWith_splitOnSub {old s : List Char} :
    joinWith old (splitOnSub old s) = s :=
  joinWith_splitFuel s.length s

/-- With enough fuel, no piece of the greedy split contains the pattern:
the scan matched every occurrence. -/
theorem containsSub_piece_eq_false {old : List Char} (hne : old ≠ []) :
    ∀ (f : Nat) (s : List Char), s.length ≤ f →
      ∀ p ∈ splitFuel old f s, containsSub old p = false := by
  intro f
  induction f with
  | zero =>
    intro s hs p hp
    rw [List.length_eq_zero.mp (Nat.le_zero.mp hs)] at hp
    rw [splitFuel, List.mem_singleton] at hp
    subst hp
    simp [containsSub, hne]
  | succ f ih =>
    intro s hs p hp
    cases s with
    | nil =>
      rw [splitFuel, List.mem_singleton] at hp
      subst hp
      simp [containsSub, hne]
    | cons c cs =>
      rw [splitFuel] at hp
      split at hp
      · rename_i hpos
        rcases List.mem_cons.mp hp with h | h
        · subst h
          simp [containsSub, hne]
        · refine ih _ ?_ p h
          have hlen : old.length ≥ 1 := by
            cases old with
            | nil => exact absurd rfl hne
            | cons o os => simp
          simp only [List.length_drop, List.length_cons]
          simp only [List.length_cons] at hs
          omega
      · rename_i hneg
        cases hsp : splitFuel old f cs with
        | nil => exact absurd hsp (splitFuel_ne_nil f cs)
        | cons q qs =>
          rw [hsp] at hp
          have hcs : cs.length ≤ f := by
            simp only [List.length_cons] at hs
            omega
          rcases List.mem_cons.mp hp with h | h
          · subst h
            have hq : containsSub old q = false :=
              ih cs hcs q (hsp ▸ List.mem_cons_self q qs)
            have hpre : old.isPrefixOf (c :: q) = false := by
              by_contra hcon
              rw [Bool.not_eq_false] at hcon
              have hqpre : q <+: cs := firstPiece_isPre hsp
              have : old <+: c :: cs :=
                (isPrefixOf_iff.mp hcon).trans
                  (List.cons_prefix_cons.mpr ⟨rfl, hqpre⟩)
              exact hneg ⟨hne, isPrefixOf_iff.mpr this⟩
            rw [containsSub, hpre, hq]
            rfl
          · exact ih cs hcs p (hsp ▸ List.mem_cons_of_mem q h)

/-- If the pattern does not occur, the greedy split is a single piece. -/
theorem splitFuel_of_not_contains {old s : List Char}
    (h : containsSub old s = false) : ∀ f, splitFuel old f s = [s] := by
  intro f
  induction f generalizing s with
  | zero => rfl
  | succ f ih =>
    cases s with
    | nil => rfl
    | cons c cs =>
      rw [containsSub, Bool.or_eq_false_iff] at h
      rw [splitFuel]
      split
      · rename_i hpos
        rw [hpos.2] at h
        cases h.1
      · rw [ih h.2]

/-- A text with designated unique occurrence context splits as `[A, B]`:
no match starts strictly inside `A` and none occurs in `B`. -/
theorem splitFuel_single {old A B : List Char} (hne : old ≠ [])
    (h1 : ∀ t ∈ A.tails, t ≠ [] → old.isPrefixOf (t ++ old ++ B) = false)
    (h2 : containsSub old B = false) :
    ∀ f, A.length < f → splitFuel old f (A ++ old ++ B) = [A, B] := by
  induction A with
  | nil =>
    intro f hf
    cases f with
    | zero => omega
    | succ f =>
      cases old with
      | nil => exact absurd rfl hne
      | cons o os =>
        rw [show ([] ++ (o :: os) ++ B) = o :: (os ++ B) by simp]
        rw [splitFuel]
        rw [if_pos ⟨hne, isPrefixOf_iff.mpr (by
          simp)⟩]
        have hdrop : List.drop (o :: os).length (o :: (os ++ B)) = B := by
          simp
        rw [hdrop]
        rw [splitFuel_of_not_contains h2]
  | cons a A' ih =>
    intro f hf
    cases f with
    | zero => omega
    | succ f =>
      rw [show ((a :: A') ++ old ++ B) = a :: (A' ++ old ++ B) by simp]
      rw [splitFuel]
      rw [if_neg ?_]
      · have hrec : splitFuel old f (A' ++ old ++ B) = [A', B] := by
          refine ih (fun t ht htne => h1 t ?_ htne) f ?_
          · rw [List.mem_tails] at ht ⊢
            exact ht.trans (List.suffix_cons a A')
          · simp only [List.length_cons] at hf
            omega
        rw [hrec]
      · intro hcon
        have := h1 (a :: A') ((List.mem_tails _ _).mpr List.suffix_rfl)
          (List.cons_ne_nil a A')
        rw [show ((a :: A') ++ old ++ B) = a :: (A' ++ old ++ B) by simp] at this
        rw [hcon.2] at this
        cases this

/-- If the pattern occurs, the greedy split has at least two pieces. -/
theorem splitFuel_two_pieces {old : List Char} (hne : old ≠ []) :
    ∀ (f : Nat) (s : List Char), s.length ≤ f → containsSub old s = true →
      ∃ p q qs, splitFuel old f s = p :: q :: qs := by
  intro f
  induction f with
  | zero =>
    intro s hs h
    rw [List.length_eq_zero.mp (Nat.le_zero.mp hs)] at h
    simp [containsSub, hne] at h
  | succ f ih =>
    intro s hs h
    cases s with
    | nil => simp [containsSub, hne] at h
    | cons c cs =>
      rw [splitFuel]
      by_cases hpos : old ≠ [] ∧ old.isPrefixOf (c :: cs)
      · rw [if_pos hpos]
        cases hsp : splitFuel old f ((c :: cs).drop old.length) with
        | nil => exact absurd hsp (splitFuel_ne_nil f _)
        | cons q qs => exact ⟨[], q, qs, rfl⟩
      · rw [if_neg hpos]
        rw [containsSub, Bool.or_eq_true] at h
        rcases h with h | h
        · exact absurd ⟨hne, h⟩ hpos
        · have hcs : cs.length ≤ f := by
            simp only [List.length_cons] at hs
            omega
          obtain ⟨p, q, qs, hsp⟩ := ih cs hcs h
          rw [hsp]
          exact ⟨c :: p, q, qs, rfl⟩

theorem noOverlap_true_spec {pat x : List Char} (h : noOverlap pat x = true) :
    (¬ pat <:+: x) ∧ (¬ x <:+: pat) ∧
      (∀ v, v <:+ pat → v ≠ [] → v ≠ pat → ¬ v <+: x) ∧
      (∀ t, t <:+ x → t ≠ [] → t ≠ x → ¬ t <+: pat) := by
  rw [noOverlap] at h
  simp only [Bool.and_eq_true, Bool.not_eq_true', List.all_eq_true] at h
  obtain ⟨⟨⟨h1, h2⟩, h3⟩, h4⟩ := h
  refine ⟨containsSub_eq_false.mp h1, containsSub_eq_false.mp h2, ?_, ?_⟩
  · intro v hv hvne hvnp hpre
    have hv' := h3 v ((List.mem_tails _ _).mpr hv)
    simp only [Bool.or_eq_true, List.isEmpty_iff, beq_iff_eq,
      Bool.not_eq_true'] at hv'
    rcases hv' with (h' | h') | h'
    · exact hvne h'
    · exact hvnp h'
    · exact absurd (isPrefixOf_iff.mpr hpre) (by simp [h'])
  · intro t ht htne htnx hpre
    have ht' := h4 t ((List.mem_tails _ _).mpr ht)
    simp only [Bool.or_eq_true, List.isEmpty_iff, beq_iff_eq,
      Bool.not_eq_true'] at ht'
    rcases ht' with (h' | h') | h'
    · exact htne h'
    · exact htnx h'
    · exact absurd (isPrefixOf_iff.mpr hpre) (by simp [h'])

theorem noOverlap_eq_false_of_inf1 {pat x : List Char} (h : pat <:+: x) :
    noOverlap pat x = false := by
  cases hno : noOverlap pat x with
  | false => rfl
  | true => exact absurd h (noOverlap_true_spec hno).1

theorem noOverlap_eq_false_of_inf2 {pat x : List Char} (h : x <:+: pat) :
    noOverlap pat x = false := by
  cases hno : noOverlap pat x with
  | false => rfl
  | true => exact absurd h (noOverlap_true_spec hno).2.1

theorem noOverlap_eq_false_of_sufpre {pat x v : List Char} (hv : v <:+ pat)
    (hvne : v ≠ []) (hvnp : v ≠ pat) (hpre : v <+: x) :
    noOverlap pat x = false := by
  cases hno : noOverlap pat x with
  | false => rfl
  | true => exact absurd hpre ((noOverlap_true_spec hno).2.2.1 v hv hvne hvnp)

theorem noOverlap_eq_false_of_presuf {pat x t : List Char} (ht : t <:+ x)
    (htne : t ≠ []) (htnx : t ≠ x) (hpre : t <+: pat) :
    noOverlap pat x = false := by
  cases hno : noOverlap pat x with
  | false => rfl
  | true => exact absurd hpre ((noOverlap_true_spec hno).2.2.2 t ht htne htnx)

/-- Occurrence analysis for a join: an occurrence of `pat` in the pieces
joined with `x` either lies entirely in a piece, or witnesses an overlap
between `pat` and `x`. -/
theorem containsSub_joinWith {pat x : List Char} :
    ∀ seps, containsSub pat (joinWith x seps) = true →
      (∃ s ∈ seps, containsSub pat s = true) ∨ noOverlap pat x = false := by
  intro seps
  induction seps with
  | nil =>
    intro h
    right
    have hpat : pat = [] := by simpa [joinWith, containsSub] using h
    subst hpat
    exact noOverlap_eq_false_of_inf1 List.nil_infix
  | cons s rest ih =>
    intro h
    cases rest with
    | nil => exact Or.inl ⟨s, List.mem_singleton_self s, h⟩
    | cons s2 rest2 =>
      rw [joinWith_cons_cons, List.append_assoc] at h
      rcases containsSub_append h with ⟨t, ht, htne, hp⟩ | h
      · rcases prefix_split hp with hp | ⟨r, hr, hrpre⟩
        · exact Or.inl ⟨s, List.mem_cons_self s _,
            containsSub_iff.mpr (hp.isInfix.trans ht.isInfix)⟩
        · by_cases hr0 : r = []
          · subst hr0
            rw [List.append_nil] at hr
            subst hr
            exact Or.inl ⟨s, List.mem_cons_self s _,
              containsSub_iff.mpr ht.isInfix⟩
          · rcases prefix_split hrpre with hrx | ⟨w, hw, hwpre⟩
            · right
              refine noOverlap_eq_false_of_sufpre ?_ hr0 ?_ hrx
              · rw [hr]
                exact List.suffix_append t r
              · intro hrp
                rw [hrp] at hr
                have hlen := congrArg List.length hr
                simp only [List.length_append] at hlen
                exact htne (List.length_eq_zero.mp (by omega))
            · right
              refine noOverlap_eq_false_of_inf2 ?_
              have hxr : x <+: r := hw ▸ List.prefix_append x w
              have hrs : r <:+ pat := hr ▸ List.suffix_append t r
              exact hxr.isInfix.trans hrs.isInfix
      · rcases containsSub_append h with ⟨t, ht, htne, hp⟩ | h
        · rcases prefix_split hp with hp | ⟨r, hr, hrpre⟩
          · exact Or.inr (noOverlap_eq_false_of_inf1 (hp.isInfix.trans ht.isInfix))
          · by_cases hr0 : r = []
            · subst hr0
              rw [List.append_nil] at hr
              subst hr
              exact Or.inr (noOverlap_eq_false_of_inf1 ht.isInfix)
            · by_cases htx : t = x
              · subst htx
                exact Or.inr (noOverlap_eq_false_of_inf2
                  (hr ▸ List.prefix_append t r).isInfix)
              · refine Or.inr (noOverlap_eq_false_of_presuf ht htne htx ?_)
                rw [hr]
                exact List.prefix_append t r
        · rcases ih h with ⟨s', hs', hc⟩ | hno
          · exact Or.inl ⟨s', List.mem_cons_of_mem s hs', hc⟩
          · exact Or.inr hno

/-- If `pat` occurs in no piece and cannot overlap `x`, `pat` does not
occur in the join. -/
theorem containsSub_joinWith_eq_false {pat x : List Char} {seps : List (List Char)}
    (hno : noOverlap pat x = true) (hin : ∀ s ∈ seps, containsSub pat s = false) :
    containsSub pat (joinWith x seps) = false := by
  cases hc : containsSub pat (joinWith x seps) with
  | false => rfl
  | true =>
    rcases containsSub_joinWith seps hc with ⟨s, hs, h⟩ | h
    · rw [hin s hs] at h
      cases h
    · rw [hno] at h
      cases h

theorem mem_joinWith_isInf {x : List Char} : ∀ {seps : List (List Char)}
    {p : List Char}, p ∈ seps → p <:+: joinWith x seps := by
  intro seps
  induction seps with
  | nil =>
    intro p h
    exact absurd h (List.not_mem_nil p)
  | cons s rest ih =>
    intro p h
    cases rest with
    | nil =>
      rw [List.mem_singleton] at h
      exact h ▸ List.infix_rfl
    | cons s2 rest2 =>
      rw [joinWith_cons_cons]
      rcases List.mem_cons.mp h with h | h
      · subst h
        exact ((List.prefix_append p x).trans
          (List.prefix_append (p ++ x) _)).isInfix
      · exact (ih h).trans (List.suffix_append _ _).isInfix

/-- A replacement never creates an occurrence of `pat` when `pat` cannot
overlap the inserted text `new`. -/
theorem pyReplace_pres_not {pat old new s : List Char}
    (hno : noOverlap pat new = true) (h : containsSub pat s = false) :
    containsSub pat (pyReplace s old new) = false := by
  rw [pyReplace_eq_joinWith]
  apply containsSub_joinWith_eq_false hno
  intro p hp
  cases hcp : containsSub pat p with
  | false => rfl
  | true =>
    have hps : pat <:+: s := (containsSub_iff.mp hcp).trans (piece_isInf hp)
    rw [containsSub_iff.mpr hps] at h
    cases h

/-- A replacement never destroys an occurrence of `pat` when `pat` cannot
overlap the replaced pattern `old`. -/
theorem pyReplace_pres_yes {pat old new s : List Char}
    (hno : noOverlap pat old = true) (h : containsSub pat s = true) :
    containsSub pat (pyReplace s old new) = true := by
  have h' : containsSub pat (joinWith old (splitOnSub old s)) = true := by
    rw [joinWith_splitOnSub]
    exact h
  rcases containsSub_joinWith _ h' with ⟨p, hp, hcp⟩ | hfalse
  · rw [pyReplace_eq_joinWith]
    exact containsSub_iff.mpr ((containsSub_iff.mp hcp).trans (mem_joinWith_isInf hp))
  · rw [hno] at hfalse
    cases hfalse

/-- Replacing a designated unique occurrence: if no match of `old` starts
strictly inside `A` and none occurs in `B`, then replacing in
`A ++ old ++ B` yields `A ++ new ++ B`. -/
theorem pyReplace_single {old new A B : List Char} (hne : old ≠ [])
    (h1 : ∀ t ∈ A.tails, t ≠ [] → old.isPrefixOf (t ++ old ++ B) = false)
    (h2 : containsSub old B = false) :
    pyReplace (A ++ old ++ B) old new = A ++ new ++ B := by
  have hlen : A.length < (A ++ old ++ B).length := by
    have hone : 1 ≤ old.length := by
      cases old with
      | nil => exact absurd rfl hne
      | cons _ _ => simp
    simp only [List.length_append]
    omega
  rw [pyReplace_eq_joinWith,
    show splitOnSub old (A ++ old ++ B) = [A, B] from
      splitFuel_single hne h1 h2 _ hlen]
  rfl

/-- A call made by the tool to one of the two cached year functions. -/
inductive YearCall where
  | thisYear : YearCall
  | lastYear : YearCall
deriving DecidableEq

/-- One call to the memoized pair `this_year` / `last_year`.  The state
holds the two `functools.cache` memo cells; `clock t` is the calendar
year `dt.datetime.now().year` read at time `t`.  `last_year()` computes
`this_year() - 1`, where the nested `this_year()` call itself consults
and fills its own cache. -/
def yearStep (clock : Nat → Nat) (t : Nat) :
    YearCall → Option Nat × Option Nat → Nat × (Option Nat × Option Nat)
  | .thisYear, (some y, c2) => (y, (some y, c2))
  | .thisYear, (none, c2) => (clock t, (some (clock t), c2))
  | .lastYear, (c1, some y) => (y, (c1, some y))
  | .lastYear, (some y, none) => (y - 1, (some y, some (y - 1)))
  | .lastYear, (none, none) => (clock t - 1, (some (clock t), some (clock t - 1)))

/-- Run a sequence of timed calls against the caches, collecting the
returned years. -/
def runYearCalls (clock : Nat → Nat) :
    List (Nat × YearCall) → Option Nat × Option Nat → List Nat
  | [], _ => []
  | (t, k) :: rest, st =>
    (yearStep clock t k st).1 :: runYearCalls clock rest (yearStep clock t k st).2

/-- The value of `last_year()` in terms of the memoized `this_year()`. -/
def last_year (this_year : Nat) : Nat := this_year - 1

/-- The five ordered literal replacements applied by `update_readme`, as
`(old, new)` pairs; `ty` is the memoized `this_year()` value. -/
def readmeReplacements (ty : Nat) : List (String × String) :=
  [("# NaNoGenMo " ++ toString (last_year ty), "# NaNoGenMo " ++ toString ty),
   ("NaNoGenMo/" ++ toString (last_year ty) ++ "/issues?q=label",
    "NaNoGenMo/" ++ toString ty ++ "/issues?q=label"),
   ("This is the " ++ toString (last_year ty) ++ " edition.",
    "This is the " ++ toString ty ++ " edition."),
   ("* [" ++ toString (last_year ty - 1) ++ "](https://github.com/NaNoGenMo/" ++
      toString (last_year ty - 1) ++ ")",
    "* [" ++ toString (last_year ty) ++ "](https://github.com/NaNoGenMo/" ++
      toString (last_year ty) ++ ")\n" ++
      "* [" ++ toString (last_year ty - 1) ++ "](https://github.com/NaNoGenMo/" ++
      toString (last_year ty - 1) ++ ")"),
   ("* [" ++ toString (last_year ty - 1) ++ "](https://github.com/NaNoGenMo/" ++
      toString (last_year ty - 1) ++ "/issues/1)",
    "* [" ++ toString (last_year ty - 1) ++ "](https://github.com/NaNoGenMo/" ++
      toString (last_year ty - 1) ++ "/issues/1)\n" ++
      "* [" ++ toString (last_year ty) ++ "](https://github.com/NaNoGenMo/" ++
      toString (last_year ty) ++ "/issues/1)")]

/-- The pure text transformation of `update_readme`: fold the five
`str.replace` calls over the README content. -/
def updateReadmeData (ty : Nat) (readme : List Char) : List Char :=
  (readmeReplacements ty).foldl (fun r p => pyReplace r p.1.data p.2.data) readme

/-- The `update_readme` text transformation on a whole README string. -/
def update_readme (ty : Nat) (readme : String) : String :=
  ⟨updateReadmeData ty readme.data⟩

/-- Python `range(a, b - 1, -1)`: the years from `a` down to `b`. -/
def descRange (a b : Nat) : List Nat :=
  (List.range' b (a + 1 - b)).reverse

/-- Dedented header of the Resources issue body (the result of the
`textwrap.dedent` call on the fixed literal in `create_issues`). -/
def issue1Header : String :=
  "This is an open issue where you can comment and add resources that might come in handy for NaNoGenMo.\n\nThere are already a ton of resources on the old resources threads of previous editions:\n\n"

/-- One loop-generated link line of the Resources issue body. -/
def issue1Line (y : Nat) : String :=
  "* [" ++ toString y ++ "](https://github.com/NaNoGenMo/" ++ toString y ++
    "/issues/1)\n"

/-- The fixed pre-2016 links appended to the Resources issue body. -/
def fixed1Links : String :=
  "* [2015](https://github.com/dariusk/NaNoGenMo-2015/issues/1)\n" ++
    "* [2014](https://github.com/dariusk/nanogenmo-2014/issues/1)\n" ++
    "* [2013](https://github.com/dariusk/NaNoGenMo/issues/11)\n"

/-- The Resources issue body built by `create_issues`; `ly` is the
memoized `last_year()` value. -/
def issue1Text (ly : Nat) : String :=
  (descRange ly 2016).foldl (fun t y => t ++ issue1Line y) issue1Header
    ++ fixed1Links

/-- Header of the Press-coverage issue body. -/
def issue2Header : String := "Links to previous years:\n\n"

/-- One loop-generated link line of the Press-coverage issue body. -/
def issue2Line (y : Nat) : String :=
  "* [" ++ toString y ++ "](https://github.com/NaNoGenMo/" ++ toString y ++
    "/issues/2)\n"

/-- The fixed links appended to the Press-coverage issue body. -/
def fixed2Links : String :=
  "* [2016](https://github.com/NaNoGenMo/2016/issues/5)\n" ++
    "* [2015](https://github.com/dariusk/NaNoGenMo-2015/issues/9)\n" ++
    "* [2014](https://github.com/dariusk/NaNoGenMo-2014/issues/92)\n"

/-- The Press-coverage issue body built by `create_issues`. -/
def issue2Text (ly : Nat) : String :=
  (descRange ly 2016).foldl (fun t y => t ++ issue2Line y) issue2Header
    ++ fixed2Links

/-- Python `str.split` at newline characters. -/
def splitNl : List Char → List (List Char)
  | [] => [[]]
  | c :: cs =>
    if c = '\n' then [] :: splitNl cs
    else
      match splitNl cs with
      | [] => [[c]]
      | p :: ps => (c :: p) :: ps

/-- Python `str.splitlines()` restricted to `\n` line boundaries: like
splitting at newlines but without the trailing empty line produced by a
final newline, and with no lines at all for the empty string. -/
def pySplitlines (s : List Char) : List (List Char) :=
  if s = [] then []
  else
    let ps := splitNl s
    if ps.getLast? = some [] then ps.dropLast else ps

/-- Space or tab, the characters `textwrap.dedent` treats as margin. -/
def isSpaceTab (c : Char) : Bool := c = ' ' || c = '\t'

/-- Whitespace-only lines are normalized to empty by `textwrap.dedent`. -/
def normBlank (l : List Char) : List Char :=
  if l ≠ [] ∧ l.all isSpaceTab then [] else l

/-- The leading space/tab indentation of a line. -/
def indentOf (l : List Char) : List Char := l.takeWhile isSpaceTab

/-- Longest common prefix of two character lists. -/
def lcp : List Char → List Char → List Char
  | a :: as, b :: bs => if a = b then a :: lcp as bs else []
  | _, _ => []

/-- The common margin of the nonempty normalized lines, if any. -/
def marginOf (lines : List (List Char)) : Option (List Char) :=
  lines.foldl
    (fun m l =>
      if l = [] then m
      else
        match m with
        | none => some (indentOf l)
        | some m' => some (lcp m' (indentOf l)))
    none

/-- `textwrap.dedent`: normalize whitespace-only lines to empty, compute
the longest common leading space/tab margin of the remaining lines, and
strip it from every line that carries it. -/
def dedent (s : List Char) : List Char :=
  let lines := (splitNl s).map normBlank
  let margin := (marginOf lines).getD []
  let stripped :=
    if margin = [] then lines
    else lines.map fun l => if margin.isPrefixOf l then l.drop margin.length else l
  joinWith ['\n'] stripped

/-- An observable action of `run_commands`: printing a command line, or
executing it via the shell. -/
inductive Event where
  | echo (cmd : List Char) : Event
  | exec (cmd : List Char) : Event
deriving DecidableEq

/-- Run the already-split command lines in order: empty (falsy) lines are
skipped, every other line is printed and then executed; `exit` gives each
command's exit status, and the first non-zero status aborts the run with
a `CalledProcessError`, modelled as the `some` failure component. -/
def runLines (exit : List Char → Nat) :
    List (List Char) → List Event × Option (List Char × Nat)
  | [] => ([], none)
  | l :: ls =>
    if l = [] then runLines exit ls
    else if exit l = 0 then
      ((Event.echo l) :: (Event.exec l) :: (runLines exit ls).1, (runLines exit ls).2)
    else
      ([Event.echo l, Event.exec l], some (l, exit l))

/-- `run_commands`: dedent the block, split it into lines, run them. -/
def run_commands (exit : List Char → Nat) (commands : List Char) :
    List Event × Option (List Char × Nat) :=
  runLines exit (pySplitlines (dedent commands))

/-- The old pattern of the `i`-th README replacement. -/
def replOld (ty i : Nat) : List Char :=
  ((readmeReplacements ty).getD i ("", "")).1.data

/-- The new pattern of the `i`-th README replacement. -/
def replNew (ty i : Nat) : List Char :=
  ((readmeReplacements ty).getD i ("", "")).2.data

/-- `update_readme`'s fold spelled out as five nested `str.replace` calls. -/
theorem updateReadmeData_eq (ty : Nat) (R : List Char) :
    updateReadmeData ty R =
      pyReplace (pyReplace (pyReplace (pyReplace (pyReplace R
        (replOld ty 0) (replNew ty 0)) (replOld ty 1) (replNew ty 1))
        (replOld ty 2) (replNew ty 2)) (replOld ty 3) (replNew ty 3))
        (replOld ty 4) (replNew ty 4) := rfl

/-- A replacement whose pattern is absent is the identity. -/
theorem pyReplace_of_not_contains {old new s : List Char}
    (h : containsSub old s = false) : pyReplace s old new = s := by
  rw [pyReplace_eq_joinWith,
    show splitOnSub old s = [s] from splitFuel_of_not_contains h s.length]
  rfl

/-- If the pattern occurs, the replacement text occurs in the result. -/
theorem pyReplace_contains_new {old new s : List Char} (hne : old ≠ [])
    (h : containsSub old s = true) :
    containsSub new (pyReplace s old new) = true := by
  obtain ⟨p, q, qs, hsp⟩ := splitFuel_two_pieces hne s.length s le_rfl h
  rw [pyReplace_eq_joinWith, show splitOnSub old s = p :: q :: qs from hsp,
    joinWith_cons_cons]
  exact containsSub_iff.mpr ⟨p, joinWith new (q :: qs), rfl⟩

/-- After replacing, no occurrence of the old pattern remains, provided
the pattern cannot overlap the replacement text. -/
theorem pyReplace_no_old {old new s : List Char} (hne : old ≠ [])
    (hno : noOverlap old new = true) :
    containsSub old (pyReplace s old new) = false := by
  rw [pyReplace_eq_joinWith]
  exact containsSub_joinWith_eq_false hno
    (fun p hp => containsSub_piece_eq_false hne s.length s le_rfl p hp)

/-- Side conditions designating a unique occurrence: no match of `o`
starts strictly inside `A` and none occurs in `B`. -/
abbrev stepOk (o A B : List Char) : Prop :=
  (∀ t ∈ A.tails, t ≠ [] → o.isPrefixOf (t ++ (o ++ B)) = false) ∧
    containsSub o B = false

/-- Replacing a designated unique occurrence, right-associated form. -/
theorem pyReplace_one {old new A B : List Char} (hne : old ≠ [])
    (h : stepOk old A B) :
    pyReplace (A ++ (old ++ B)) old new = A ++ (new ++ B) := by
  have h1 : ∀ t ∈ A.tails, t ≠ [] → old.isPrefixOf (t ++ old ++ B) = false := by
    intro t ht htne
    rw [List.append_assoc]
    exact h.1 t ht htne
  have h2 := @pyReplace_single old new A B hne h1 h.2
  rwa [List.append_assoc A old B, List.append_assoc A new B] at h2

theorem mem_descRange {y a b : Nat} : y ∈ descRange a b ↔ b ≤ y ∧ y ≤ a := by
  rw [descRange, List.mem_reverse, List.mem_range'_1]
  omega

/-- Concatenation of a list of strings. -/
def strConcat : List String → String
  | [] => ""
  | s :: rest => s ++ strConcat rest

theorem foldl_append_strConcat {α : Type} (g : α → String) :
    ∀ (l : List α) (t : String),
      l.foldl (fun acc y => acc ++ g y) t = t ++ strConcat (l.map g) := by
  intro l
  induction l with
  | nil => intro t; simp [strConcat]
  | cons y l ih =>
    intro t
    rw [List.map_cons, List.foldl_cons, ih, strConcat, ← String.append_assoc]

theorem infix_strConcat {α : Type} (g : α → String) :
    ∀ {l : List α} {y : α}, y ∈ l →
      (g y).data <:+: (strConcat (l.map g)).data := by
  intro l
  induction l with
  | nil => intro y h; exact absurd h (List.not_mem_nil y)
  | cons z l ih =>
    intro y h
    rw [List.map_cons, strConcat, String.data_append]
    rcases List.mem_cons.mp h with h | h
    · subst h
      exact (List.prefix_append _ _).isInfix
    · exact (ih h).trans (List.suffix_append _ _).isInfix

/-- When every nonblank command succeeds, the trace interleaves a print
and an execution for exactly the nonblank lines, in order. -/
theorem runLines_success {exitcode : List Char → Nat} :
    ∀ {ls : List (List Char)}, (∀ l ∈ ls, l ≠ [] → exitcode l = 0) →
      runLines exitcode ls =
        ((ls.filter (fun l => !l.isEmpty)).flatMap
          (fun l => [Event.echo l, Event.exec l]), none) := by
  intro ls
  induction ls with
  | nil => intro _; rfl
  | cons l ls ih =>
    intro h
    by_cases hl : l = []
    · subst hl
      rw [runLines, if_pos rfl, ih (fun x hx => h x (List.mem_cons_of_mem _ hx))]
      simp [List.filter_cons]
    · rw [runLines, if_neg hl, if_pos (h l (List.mem_cons_self l ls) hl),
        ih (fun x hx => h x (List.mem_cons_of_mem _ hx))]
      simp [List.filter_cons, hl]

/-- A blank line is never executed. -/
theorem runLines_no_blank {exitcode : List Char → Nat} :
    ∀ (ls : List (List Char)), Event.exec [] ∉ (runLines exitcode ls).1 := by
  intro ls
  induction ls with
  | nil => simp [runLines]
  | cons l ls ih =>
    by_cases hl : l = []
    · subst hl
      rw [runLines, if_pos rfl]
      exact ih
    · by_cases he : exitcode l = 0
      · rw [runLines, if_neg hl, if_pos he]
        intro h
        rcases List.mem_cons.mp h with h | h
        · exact Event.noConfusion h
        · rcases List.mem_cons.mp h with h | h
          · exact hl ((Event.exec.inj h).symm)
          · exact ih h
      · rw [runLines, if_neg hl, if_neg he]
        intro h
        rcases List.mem_cons.mp h with h | h
        · exact Event.noConfusion h
        · rcases List.mem_cons.mp h with h | h
          · exact hl ((Event.exec.inj h).symm)
          · exact absurd h (List.not_mem_nil _)

/-- Blank lines are transparent to the runner. -/
theorem runLines_eq_filter {exitcode : List Char → Nat} :
    ∀ (ls : List (List Char)),
      runLines exitcode ls = runLines exitcode (ls.filter (fun l => !l.isEmpty)) := by
  intro ls
  induction ls with
  | nil => rfl
  | cons l ls ih =>
    by_cases hl : l = []
    · subst hl
      rw [runLines, if_pos rfl, ih]
      simp [List.filter_cons]
    · have hkeep : (l :: ls).filter (fun l => !l.isEmpty) =
          l :: ls.filter (fun l => !l.isEmpty) := by
        simp [List.filter_cons, hl]
      rw [hkeep]
      simp only [runLines]
      rw [if_neg hl, if_neg hl, ih]

/-- If the commands before `c` succeed and `c` fails, the run executes
exactly the commands up to and including `c` and aborts with its status. -/
theorem runLines_fail {exitcode : List Char → Nat} {c : List Char}
    (hcne : c ≠ []) (hc : exitcode c ≠ 0) :
    ∀ (pre post : List (List Char)),
      (∀ l ∈ pre, l ≠ [] ∧ exitcode l = 0) →
      runLines exitcode (pre ++ c :: post) =
        (pre.flatMap (fun l => [Event.echo l, Event.exec l]) ++
          [Event.echo c, Event.exec c], some (c, exitcode c)) := by
  intro pre
  induction pre with
  | nil =>
    intro post _
    rw [List.nil_append, runLines, if_neg hcne, if_neg hc]
    simp
  | cons l pre ih =>
    intro post h
    obtain ⟨hlne, hl0⟩ := h l (List.mem_cons_self l pre)
    rw [List.cons_append, runLines, if_neg hlne, if_pos hl0,
      ih post (fun x hx => h x (List.mem_cons_of_mem _ hx))]
    simp

/-- A sample README containing exactly the five previous-year patterns
for previous year 2023 (current year 2024). -/
def sampleReadme : String :=
  "# NaNoGenMo 2023\nNaNoGenMo/2023/issues?q=label\nThis is the 2023 edition.\n* [2022](https://github.com/NaNoGenMo/2022)\n* [2022](https://github.com/NaNoGenMo/2022/issues/1)\n"

/-- `sampleReadme` after one pass of the five replacements. -/
def sampleReadmeOnce : String :=
  "# NaNoGenMo 2024\nNaNoGenMo/2024/issues?q=label\nThis is the 2024 edition.\n* [2023](https://github.com/NaNoGenMo/2023)\n* [2022](https://github.com/NaNoGenMo/2022)\n* [2022](https://github.com/NaNoGenMo/2022/issues/1)\n* [2023](https://github.com/NaNoGenMo/2023/issues/1)\n"

/-- `sampleReadmeOnce` after a second pass: replacements 4 and 5 match
again and duplicate the inserted current-year list lines. -/
def sampleReadmeTwice : String :=
  "# NaNoGenMo 2024\nNaNoGenMo/2024/issues?q=label\nThis is the 2024 edition.\n* [2023](https://github.com/NaNoGenMo/2023)\n* [2023](https://github.com/NaNoGenMo/2023)\n* [2022](https://github.com/NaNoGenMo/2022)\n* [2022](https://github.com/NaNoGenMo/2022/issues/1)\n* [2023](https://github.com/NaNoGenMo/2023/issues/1)\n* [2023](https://github.com/NaNoGenMo/2023/issues/1)\n"

/-- Claim C1 is false on the code: `sampleReadme` contains every one of
the five previous-year patterns, yet applying the five-replacement
transformation twice does not agree with applying it once — the second
pass is not a no-op. -/
theorem claim_C1_counterexample :
    (readmeReplacements 2024).all
        (fun p => containsSub p.1.data sampleReadme.data) = true ∧
      update_readme 2024 (update_readme 2024 sampleReadme) ≠
        update_readme 2024 sampleReadme := by
  constructor
  · decide
  · decide

/-- Claim C1 amended: the second pass is a no-op for the first three
replacements (their previous-year text is gone after the first pass) but
not for the two list-insertion replacements, whose old patterns are
re-inserted by their own replacement text; a second application therefore
duplicates the inserted current-year list lines. -/
theorem claim_C1_amended :
    update_readme 2024 sampleReadme = sampleReadmeOnce ∧
      update_readme 2024 sampleReadmeOnce = sampleReadmeTwice ∧
      ((readmeReplacements 2024).take 3).all
        (fun p => !containsSub p.1.data sampleReadmeOnce.data) = true ∧
      ((readmeReplacements 2024).drop 3).all
        (fun p => containsSub p.1.data sampleReadmeOnce.data) = true := by
  refine ⟨by decide, by decide, by decide, by decide⟩

/-- A line of an issue body that carries a year link. -/
def isLinkLine (l : List Char) : Bool := ("* [").data.isPrefixOf l

/-- The link lines of an issue body, in order. -/
def linkLines (s : String) : List (List Char) :=
  (splitNl s.data).filter isLinkLine

/-- Claim C4: for previous year 2024 the Resources issue body has exactly
one link line per year from 2024 down to 2016 in descending order,
followed by exactly the three fixed historical links (2015, 2014, 2013),
and no other link lines. -/
theorem claim_C4 :
    linkLines (issue1Text 2024) =
      (descRange 2024 2016).map (fun y =>
        ("* [" ++ toString y ++ "](https://github.com/NaNoGenMo/" ++
          toString y ++ "/issues/1)").data) ++
      [("* [2015](https://github.com/dariusk/NaNoGenMo-2015/issues/1)").data,
       ("* [2014](https://github.com/dariusk/nanogenmo-2014/issues/1)").data,
       ("* [2013](https://github.com/dariusk/NaNoGenMo/issues/11)").data] ∧
      descRange 2024 2016 =
        [2024, 2023, 2022, 2021, 2020, 2019, 2018, 2017, 2016] := by
  constructor
  · decide
  · decide

/-- Claim C5 is false on the code: for previous year 2024 (current year
2025) the Press-coverage issue body carries the year 2016 both as a
loop-generated link line (issue 2) and as an appended fixed link
(issue 5), so a fixed link is not strictly before the loop floor. -/
theorem claim_C5_counterexample :
    2016 ∈ descRange (last_year 2025) 2016 ∧
      containsSub ("* [2016](https://github.com/NaNoGenMo/2016/issues/2)\n").data
        (issue2Text (last_year 2025)).data = true ∧
      containsSub ("* [2016](https://github.com/NaNoGenMo/2016/issues/5)\n").data
        (issue2Text (last_year 2025)).data = true ∧
      ((splitNl (issue2Text (last_year 2025)).data).filter
        (fun l => ("* [2016]").data.isPrefixOf l)).length = 2 := by
  refine ⟨by decide, by decide, by decide, by decide⟩

/-- Claim C5 amended: both issue bodies are built by iterating backward
from the previous year down to the floor 2016, one generated link line
per year, followed by three fixed links; for the Resources issue the
fixed links (2015, 2014, 2013) are all strictly before the floor, but
the Press-coverage issue's fixed links are 2016 (issue 5), 2015 and
2014, so when the previous year is at least 2016 the year 2016 appears
both as a generated loop line and as an appended fixed link. -/
theorem claim_C5_amended (ly : Nat) :
    (issue1Text ly = issue1Header ++
      strConcat ((descRange ly 2016).map issue1Line) ++ fixed1Links) ∧
    (issue2Text ly = issue2Header ++
      strConcat ((descRange ly 2016).map issue2Line) ++ fixed2Links) ∧
    (∀ y ∈ descRange ly 2016, 2016 ≤ y ∧ y ≤ ly) ∧
    (2016 ≤ ly →
      2016 ∈ descRange ly 2016 ∧
      containsSub (issue2Line 2016).data (issue2Text ly).data = true ∧
      containsSub ("* [2016](https://github.com/NaNoGenMo/2016/issues/5)\n").data
        (issue2Text ly).data = true) := by
  have h1 : issue1Text ly = issue1Header ++
      strConcat ((descRange ly 2016).map issue1Line) ++ fixed1Links := by
    rw [issue1Text, foldl_append_strConcat]
  have h2 : issue2Text ly = issue2Header ++
      strConcat ((descRange ly 2016).map issue2Line) ++ fixed2Links := by
    rw [issue2Text, foldl_append_strConcat]
  refine ⟨h1, h2, fun y hy => mem_descRange.mp hy, fun h16 => ?_⟩
  have hmem : 2016 ∈ descRange ly 2016 := mem_descRange.mpr ⟨le_rfl, h16⟩
  refine ⟨hmem, ?_, ?_⟩
  · rw [h2]
    apply containsSub_iff.mpr
    refine (infix_strConcat issue2Line hmem).trans ?_
    rw [String.data_append, String.data_append]
    exact ⟨issue2Header.data, fixed2Links.data, rfl⟩
  · rw [h2]
    apply containsSub_iff.mpr
    have hfix : ("* [2016](https://github.com/NaNoGenMo/2016/issues/5)\n").data <+:
        fixed2Links.data := by decide
    have hsuf : fixed2Links.data <:+ (issue2Header ++
        strConcat ((descRange ly 2016).map issue2Line) ++ fixed2Links).data := by
      rw [String.data_append]
      exact List.suffix_append _ _
    exact hfix.isInfix.trans hsuf.isInfix

/-- Witness for the amended C5 at previous year 2024. -/
theorem claim_C5_amended_witness :
    issue2Text 2024 = issue2Header ++
        strConcat ((descRange 2024 2016).map issue2Line) ++ fixed2Links ∧
      2016 ∈ descRange 2024 2016 ∧
      containsSub (issue2Line 2016).data (issue2Text 2024).data = true := by
  have h := claim_C5_amended 2024
  exact ⟨h.2.1, (h.2.2.2 (by norm_num)).1, (h.2.2.2 (by norm_num)).2.1⟩

/-- Once the `this_year` cache holds `Y` (and the `last_year` cache is
either empty or holds `Y - 1`), every further call returns the cached
values. -/
theorem runYearCalls_cached (clock : Nat → Nat) (Y : Nat) :
    ∀ (calls : List (Nat × YearCall)) (c2 : Option Nat),
      (c2 = none ∨ c2 = some (Y - 1)) →
      runYearCalls clock calls (some Y, c2) =
        calls.map (fun p => match p.2 with
          | .thisYear => Y
          | .lastYear => Y - 1) := by
  intro calls
  induction calls with
  | nil => intro c2 _; rfl
  | cons p rest ih =>
    intro c2 hc2
    obtain ⟨t, k⟩ := p
    cases k with
    | thisYear =>
      rw [runYearCalls, List.map_cons]
      rw [show yearStep clock t .thisYear (some Y, c2) = (Y, (some Y, c2)) by
        cases c2 <;> rfl]
      rw [ih c2 hc2]
    | lastYear =>
      rcases hc2 with hc2 | hc2 <;> subst hc2
      · rw [runYearCalls, List.map_cons]
        rw [show yearStep clock t .lastYear (some Y, none) =
          (Y - 1, (some Y, some (Y - 1))) from rfl]
        rw [ih (some (Y - 1)) (Or.inr rfl)]
      · rw [runYearCalls, List.map_cons]
        rw [show yearStep clock t .lastYear (some Y, some (Y - 1)) =
          (Y - 1, (some Y, some (Y - 1))) from rfl]
        rw [ih (some (Y - 1)) (Or.inr rfl)]

/-- Claim C8: starting from empty caches, every `this_year` call returns
the year read from the clock at the time of the very first call, and
every `last_year` call returns that value minus one — the values are
memoized at the first call and stay stable even if the clock moves. -/
theorem claim_C8 (clock : Nat → Nat) (t0 : Nat) (k0 : YearCall)
    (rest : List (Nat × YearCall)) :
    runYearCalls clock ((t0, k0) :: rest) (none, none) =
      ((t0, k0) :: rest).map (fun p => match p.2 with
        | .thisYear => clock t0
        | .lastYear => clock t0 - 1) := by
  cases k0 with
  | thisYear =>
    rw [runYearCalls, List.map_cons]
    rw [show yearStep clock t0 .thisYear (none, none) =
      (clock t0, (some (clock t0), none)) from rfl]
    rw [runYearCalls_cached clock (clock t0) rest none (Or.inl rfl)]
  | lastYear =>
    rw [runYearCalls, List.map_cons]
    rw [show yearStep clock t0 .lastYear (none, none) =
      (clock t0 - 1, (some (clock t0), some (clock t0 - 1))) from rfl]
    rw [runYearCalls_cached clock (clock t0) rest (some (clock t0 - 1))
      (Or.inr rfl)]

theorem data_ne_nil_left {a b : String} (h : a.data ≠ []) : (a ++ b).data ≠ [] := by
  rw [String.data_append]
  intro hc
  exact h (List.append_eq_nil.mp hc).1

/-- Every old pattern of the five replacements is a nonempty string. -/
theorem replPat_ne_nil (ty : Nat) : ∀ p ∈ readmeReplacements ty, p.1.data ≠ [] := by
  intro p hp
  simp only [readmeReplacements, List.mem_cons, List.not_mem_nil, or_false] at hp
  rcases hp with rfl | rfl | rfl | rfl | rfl <;>
    · repeat apply data_ne_nil_left
      decide

/-- Claim C9: a replacement whose expected previous-year pattern is
absent is silently a no-op (the transformation is total — no error is
possible), and a README containing none of the five old patterns is
returned entirely unchanged. -/
theorem claim_C9 :
    (∀ (old new s : List Char), containsSub old s = false →
      pyReplace s old new = s) ∧
    ∀ (ty : Nat) (R : List Char),
      (∀ p ∈ readmeReplacements ty, containsSub p.1.data R = false) →
      updateReadmeData ty R = R := by
  refine ⟨fun old new s h => pyReplace_of_not_contains h, ?_⟩
  intro ty R h
  simp only [readmeReplacements, List.forall_mem_cons] at h
  obtain ⟨h0, h1, h2, h3, h4, -⟩ := h
  simp only [updateReadmeData, readmeReplacements, List.foldl_cons, List.foldl_nil]
  rw [pyReplace_of_not_contains h0, pyReplace_of_not_contains h1,
    pyReplace_of_not_contains h2, pyReplace_of_not_contains h3,
    pyReplace_of_not_contains h4]

/-- Witness for C9 at concrete inputs. -/
theorem claim_C9_witness :
    pyReplace ("xyz").data ("ab").data ("c").data = ("xyz").data ∧
      updateReadmeData 2024 ("hello").data = ("hello").data :=
  ⟨claim_C9.1 ("ab").data ("c").data ("xyz").data (by decide),
   claim_C9.2 2024 ("hello").data (by decide)⟩

/-- Claim C10: each of the five substitutions replaces every occurrence
of its old pattern, not only the first — for any input, the result is
the greedy occurrence decomposition rejoined with the new pattern in
place of each of the matches (and rejoining with the old pattern
recovers the input, whose pieces are exactly the match-free stretches);
moreover, whenever the old pattern cannot overlap the replacement text
(which holds for replacements 1-3, but not 4-5 whose replacement text
re-embeds the old pattern), no occurrence of the old pattern remains. -/
theorem claim_C10 :
    (∀ (ty : Nat), ∀ p ∈ readmeReplacements ty, ∀ (s : List Char),
      pyReplace s p.1.data p.2.data =
          joinWith p.2.data (splitOnSub p.1.data s) ∧
        joinWith p.1.data (splitOnSub p.1.data s) = s ∧
        ∀ q ∈ splitOnSub p.1.data s, containsSub p.1.data q = false) ∧
    (∀ (ty : Nat), ∀ p ∈ readmeReplacements ty,
      noOverlap p.1.data p.2.data = true →
      ∀ (s : List Char),
        containsSub p.1.data (pyReplace s p.1.data p.2.data) = false) := by
  constructor
  · intro ty p hp s
    exact ⟨pyReplace_eq_joinWith, joinWith_splitOnSub,
      fun q hq => containsSub_piece_eq_false (replPat_ne_nil ty p hp)
        s.length s le_rfl q hq⟩
  · intro ty p hp hno s
    exact pyReplace_no_old (replPat_ne_nil ty p hp) hno

/-- Witness for C10: the title replacement at current year 2024, on a
text containing its pattern twice. -/
theorem claim_C10_witness :
    pyReplace ("x # NaNoGenMo 2023 y # NaNoGenMo 2023 z").data
        ((readmeReplacements 2024).getD 0 ("", "")).1.data
        ((readmeReplacements 2024).getD 0 ("", "")).2.data =
      joinWith ((readmeReplacements 2024).getD 0 ("", "")).2.data
        (splitOnSub ((readmeReplacements 2024).getD 0 ("", "")).1.data
          ("x # NaNoGenMo 2023 y # NaNoGenMo 2023 z").data) ∧
    containsSub ((readmeReplacements 2024).getD 0 ("", "")).1.data
        (pyReplace ("x # NaNoGenMo 2023 y # NaNoGenMo 2023 z").data
          ((readmeReplacements 2024).getD 0 ("", "")).1.data
          ((readmeReplacements 2024).getD 0 ("", "")).2.data) = false :=
  ⟨(claim_C10.1 2024 _ (by decide) _).1,
   claim_C10.2 2024 _ (by decide) (by decide) _⟩

/-- Claim C3: with previous year 2023 (current year 2024), updating any
README containing the 2023 title line yields a README containing the
2024 title line and no occurrence of the 2023 one. -/
theorem claim_C3 (R : List Char)
    (h : containsSub ("# NaNoGenMo 2023").data R = true) :
    containsSub ("# NaNoGenMo 2024").data (updateReadmeData 2024 R) = true ∧
      containsSub ("# NaNoGenMo 2023").data (updateReadmeData 2024 R) = false := by
  rw [updateReadmeData_eq]
  have e0 : replOld 2024 0 = ("# NaNoGenMo 2023").data := by decide
  have en0 : replNew 2024 0 = ("# NaNoGenMo 2024").data := by decide
  have hne0 : replOld 2024 0 ≠ [] := by decide
  constructor
  · refine pyReplace_pres_yes (by decide) ?_
    refine pyReplace_pres_yes (by decide) ?_
    refine pyReplace_pres_yes (by decide) ?_
    refine pyReplace_pres_yes (by decide) ?_
    have hy := @pyReplace_contains_new (replOld 2024 0) (replNew 2024 0) R
      hne0 (by rw [e0]; exact h)
    rw [en0] at hy
    exact hy
  · refine pyReplace_pres_not (by decide) ?_
    refine pyReplace_pres_not (by decide) ?_
    refine pyReplace_pres_not (by decide) ?_
    refine pyReplace_pres_not (by decide) ?_
    have hn := @pyReplace_no_old (replOld 2024 0) (replNew 2024 0) R hne0 (by decide)
    rw [e0] at hn
    exact hn

/-- Witness for C3 at the sample README. -/
theorem claim_C3_witness :
    containsSub ("# NaNoGenMo 2024").data
        (updateReadmeData 2024 sampleReadme.data) = true ∧
      containsSub ("# NaNoGenMo 2023").data
        (updateReadmeData 2024 sampleReadme.data) = false :=
  claim_C3 sampleReadme.data (by decide)

/-- Claim C6: when every nonblank line succeeds, the runner prints and
executes exactly the nonblank lines of the dedented block in their
original order (a print immediately before each execution), finishes
without error, and a blank line is never executed by any run. -/
theorem claim_C6 (exitcode : List Char → Nat) (commands : List Char)
    (hall : ∀ l ∈ pySplitlines (dedent commands), l ≠ [] → exitcode l = 0) :
    ((run_commands exitcode commands).1 =
        ((pySplitlines (dedent commands)).filter (fun l => !l.isEmpty)).flatMap
          (fun l => [Event.echo l, Event.exec l]) ∧
      (run_commands exitcode commands).2 = none) ∧
      ∀ (e2 : List Char → Nat) (c2 : List Char),
        Event.exec [] ∉ (run_commands e2 c2).1 := by
  refine ⟨?_, fun e2 c2 => runLines_no_blank _⟩
  constructor
  · simp only [run_commands]
    rw [runLines_success hall]
  · simp only [run_commands]
    rw [runLines_success hall]

/-- Witness for C6 on a two-command block with a blank line. -/
theorem claim_C6_witness :
    (run_commands (fun _ => 0) ("a\n\nb").data).1 =
      [Event.echo ("a").data, Event.exec ("a").data,
       Event.echo ("b").data, Event.exec ("b").data] := by
  have h := (claim_C6 (fun _ => 0) ("a\n\nb").data (by decide)).1.1
  rw [h]
  decide

/-- Claim C7: if the commands before `c` succeed and `c` exits non-zero,
the run prints and executes exactly the commands up to and including
`c`, surfaces `c`'s exit status as the failure, and never executes the
later commands. -/
theorem claim_C7 (exitcode : List Char → Nat) (commands : List Char)
    (pre : List (List Char)) (c : List Char) (post : List (List Char))
    (hsplit : (pySplitlines (dedent commands)).filter (fun l => !l.isEmpty) =
      pre ++ c :: post)
    (hpre : ∀ l ∈ pre, exitcode l = 0) (hc : exitcode c ≠ 0) :
    (run_commands exitcode commands).1 =
        pre.flatMap (fun l => [Event.echo l, Event.exec l]) ++
          [Event.echo c, Event.exec c] ∧
      (run_commands exitcode commands).2 = some (c, exitcode c) := by
  have hcne : c ≠ [] := by
    have hcmem : c ∈ (pySplitlines (dedent commands)).filter
        (fun l => !l.isEmpty) := by
      rw [hsplit]
      exact List.mem_append_right pre (List.mem_cons_self c post)
    have := List.of_mem_filter hcmem
    simpa using this
  have hpre' : ∀ l ∈ pre, l ≠ [] ∧ exitcode l = 0 := by
    intro l hl
    refine ⟨?_, hpre l hl⟩
    have hlmem : l ∈ (pySplitlines (dedent commands)).filter
        (fun l => !l.isEmpty) := by
      rw [hsplit]
      exact List.mem_append_left _ hl
    have := List.of_mem_filter hlmem
    simpa using this
  have key := runLines_fail hcne hc pre post hpre'
  rw [← hsplit, ← runLines_eq_filter] at key
  constructor
  · simp only [run_commands]
    rw [key]
  · simp only [run_commands]
    rw [key]

/-- Witness for C7: the third line fails, the fourth is never run. -/
theorem claim_C7_witness :
    (run_commands (fun l => if l = ("boom").data then 3 else 0)
        ("ok\n\nboom\nnever").data).1 =
      [Event.echo ("ok").data, Event.exec ("ok").data,
       Event.echo ("boom").data, Event.exec ("boom").data] ∧
    (run_commands (fun l => if l = ("boom").data then 3 else 0)
        ("ok\n\nboom\nnever").data).2 = some (("boom").data, 3) := by
  have h := claim_C7 (fun l => if l = ("boom").data then 3 else 0)
    ("ok\n\nboom\nnever").data [("ok").data] ("boom").data [("never").data]
    (by decide) (by decide) (by decide)
  exact ⟨by rw [h.1]; decide, by rw [h.2]; decide⟩

theorem replOld_ne_nil (ty i : Nat) (hi : i < 5) : replOld ty i ≠ [] := by
  apply replPat_ne_nil ty
  interval_cases i <;> simp [readmeReplacements]

/-- Claim C2: a README consisting of arbitrary context around exactly
the five previous-year patterns — `stepOk` states that each pattern's
designated occurrence is the only match at its step — is transformed
into the same contexts around the five current-year patterns, each in
the corresponding position. -/
theorem claim_C2 (ty : Nat) (s0 s1 s2 s3 s4 s5 : List Char)
    (h1 : stepOk (replOld ty 0) s0
      (s1 ++ (replOld ty 1 ++ (s2 ++ (replOld ty 2 ++ (s3 ++ (replOld ty 3 ++
        (s4 ++ (replOld ty 4 ++ s5)))))))))
    (h2 : stepOk (replOld ty 1) (s0 ++ (replNew ty 0 ++ s1))
      (s2 ++ (replOld ty 2 ++ (s3 ++ (replOld ty 3 ++ (s4 ++ (replOld ty 4 ++
        s5)))))))
    (h3 : stepOk (replOld ty 2)
      (s0 ++ (replNew ty 0 ++ (s1 ++ (replNew ty 1 ++ s2))))
      (s3 ++ (replOld ty 3 ++ (s4 ++ (replOld ty 4 ++ s5)))))
    (h4 : stepOk (replOld ty 3)
      (s0 ++ (replNew ty 0 ++ (s1 ++ (replNew ty 1 ++ (s2 ++ (replNew ty 2 ++
        s3))))))
      (s4 ++ (replOld ty 4 ++ s5)))
    (h5 : stepOk (replOld ty 4)
      (s0 ++ (replNew ty 0 ++ (s1 ++ (replNew ty 1 ++ (s2 ++ (replNew ty 2 ++
        (s3 ++ (replNew ty 3 ++ s4))))))))
      s5) :
    updateReadmeData ty
        (s0 ++ (replOld ty 0 ++ (s1 ++ (replOld ty 1 ++ (s2 ++ (replOld ty 2 ++
          (s3 ++ (replOld ty 3 ++ (s4 ++ (replOld ty 4 ++ s5)))))))))) =
      s0 ++ (replNew ty 0 ++ (s1 ++ (replNew ty 1 ++ (s2 ++ (replNew ty 2 ++
        (s3 ++ (replNew ty 3 ++ (s4 ++ (replNew ty 4 ++ s5))))))))) := by
  rw [updateReadmeData_eq]
  rw [pyReplace_one (replOld_ne_nil ty 0 (by norm_num)) h1]
  rw [show s0 ++ (replNew ty 0 ++ (s1 ++ (replOld ty 1 ++ (s2 ++ (replOld ty 2 ++
        (s3 ++ (replOld ty 3 ++ (s4 ++ (replOld ty 4 ++ s5))))))))) =
      (s0 ++ (replNew ty 0 ++ s1)) ++ (replOld ty 1 ++ (s2 ++ (replOld ty 2 ++
        (s3 ++ (replOld ty 3 ++ (s4 ++ (replOld ty 4 ++ s5))))))) by
    simp [List.append_assoc]]
  rw [pyReplace_one (replOld_ne_nil ty 1 (by norm_num)) h2]
  rw [show (s0 ++ (replNew ty 0 ++ s1)) ++ (replNew ty 1 ++ (s2 ++ (replOld ty 2 ++
        (s3 ++ (replOld ty 3 ++ (s4 ++ (replOld ty 4 ++ s5))))))) =
      (s0 ++ (replNew ty 0 ++ (s1 ++ (replNew ty 1 ++ s2)))) ++ (replOld ty 2 ++
        (s3 ++ (replOld ty 3 ++ (s4 ++ (replOld ty 4 ++ s5))))) by
    simp [List.append_assoc]]
  rw [pyReplace_one (replOld_ne_nil ty 2 (by norm_num)) h3]
  rw [show (s0 ++ (replNew ty 0 ++ (s1 ++ (replNew ty 1 ++ s2)))) ++ (replNew ty 2 ++
        (s3 ++ (replOld ty 3 ++ (s4 ++ (replOld ty 4 ++ s5))))) =
      (s0 ++ (replNew ty 0 ++ (s1 ++ (replNew ty 1 ++ (s2 ++ (replNew ty 2 ++
        s3)))))) ++ (replOld ty 3 ++ (s4 ++ (replOld ty 4 ++ s5))) by
    simp [List.append_assoc]]
  rw [pyReplace_one (replOld_ne_nil ty 3 (by norm_num)) h4]
  rw [show (s0 ++ (replNew ty 0 ++ (s1 ++ (replNew ty 1 ++ (s2 ++ (replNew ty 2 ++
        s3)))))) ++ (replNew ty 3 ++ (s4 ++ (replOld ty 4 ++ s5))) =
      (s0 ++ (replNew ty 0 ++ (s1 ++ (replNew ty 1 ++ (s2 ++ (replNew ty 2 ++
        (s3 ++ (replNew ty 3 ++ s4)))))))) ++ (replOld ty 4 ++ s5) by
    simp [List.append_assoc]]
  rw [pyReplace_one (replOld_ne_nil ty 4 (by norm_num)) h5]
  simp [List.append_assoc]

/-- Witness for C2: the sample README is exactly the five patterns
around newline separators, and one pass produces the expected result. -/
theorem claim_C2_witness :
    updateReadmeData 2024 sampleReadme.data = sampleReadmeOnce.data := by
  have e : sampleReadme.data =
      [] ++ (replOld 2024 0 ++ (("\n").data ++ (replOld 2024 1 ++ (("\n").data ++
        (replOld 2024 2 ++ (("\n").data ++ (replOld 2024 3 ++ (("\n").data ++
        (replOld 2024 4 ++ ("\n").data))))))))) := by decide
  rw [e, claim_C2 2024 [] ("\n").data ("\n").data ("\n").data ("\n").data
    ("\n").data (by decide) (by decide) (by decide) (by decide) (by decide)]
  decide

end NaNoGenMoGen
